import Mathlib

/-!
Verification of the google-cloud-cpp asynchronous RPC execution core and its
collaborators, as described by the repository specification.

The repository snapshot contains `app_profile_config.cc` (embedded below as
`AppProfileConfig`), the admin async integration test (whose concrete cell
data is embedded for the drop-rows-by-prefix claim), and the RFC-3339
format test.  The completion queue, retry policy, backoff policy and the
retrying-call orchestration are not part of the snapshot (only their tests
and callers are), so those components are modelled from the specification
text, as are the RFC-3339 parsing/formatting functions whose tests are in
the snapshot.
-/

namespace GoogleCloudCpp

/- ### Error taxonomy (spec section 7) -/

/-- Status codes of the remote service, as classified by the specification's
error taxonomy: transient (unavailable, deadline-exceeded, resource-exhausted,
internal) versus permanent (invalid-argument, not-found, already-exists,
permission-denied, unauthenticated, failed-precondition). -/
inductive StatusCode
  | ok
  | unavailable
  | deadlineExceeded
  | resourceExhausted
  | internalError
  | invalidArgument
  | notFound
  | alreadyExists
  | permissionDenied
  | unauthenticated
  | failedPrecondition
deriving DecidableEq

/-- Modelled from the spec: the transient (retryable) classification of the
error taxonomy in section 7. -/
def isTransient : StatusCode → Bool
  | StatusCode.unavailable => true
  | StatusCode.deadlineExceeded => true
  | StatusCode.resourceExhausted => true
  | StatusCode.internalError => true
  | _ => false

/-- Modelled from the spec: the permanent (non-retryable) classification of
the error taxonomy in section 7. -/
def isPermanent : StatusCode → Bool
  | StatusCode.invalidArgument => true
  | StatusCode.notFound => true
  | StatusCode.alreadyExists => true
  | StatusCode.permissionDenied => true
  | StatusCode.unauthenticated => true
  | StatusCode.failedPrecondition => true
  | _ => false

/- ### Retry policy (spec section 4.3) -/

/-- Modelled from the spec: a retry policy configured with a maximum attempt
count and an elapsed-time ceiling (the policy object itself is not in the
repository snapshot). -/
structure RetryPolicy where
  maxAttempts : Nat
  maxElapsed : Nat
deriving DecidableEq

/-- Retry decision value: retry, stop-permanent or stop-exhausted
(spec section 3, "Retry Decision"). -/
inductive RetryDecision
  | retry
  | stopPermanent
  | stopExhausted
deriving DecidableEq

/-- Modelled from the spec: the pure retry decision function of section 4.3.
Permanent errors always yield stop-permanent on the first occurrence;
transient errors yield retry while the attempt number is below the configured
maximum and elapsed time is below the configured ceiling, otherwise
stop-exhausted. -/
def retryDecision (p : RetryPolicy) (c : StatusCode) (attempt elapsed : Nat) :
    RetryDecision :=
  if isPermanent c then RetryDecision.stopPermanent
  else if attempt < p.maxAttempts ∧ elapsed < p.maxElapsed then RetryDecision.retry
  else RetryDecision.stopExhausted

/- ### Backoff policy (spec section 4.4) -/

/-- Modelled from the spec: a backoff policy configured with an initial delay
and a maximum delay (the exponential backoff object is not in the repository
snapshot). -/
structure BackoffPolicy where
  initialDelay : Nat
  maxDelay : Nat
deriving DecidableEq

/-- Modelled from the spec: the nominal (pre-jitter) delay before attempt
`n`, growing exponentially from the initial delay and capped at the
configured maximum delay. -/
def nominalDelay (p : BackoffPolicy) (n : Nat) : Nat :=
  min (p.initialDelay * 2 ^ (n - 1)) p.maxDelay

/-- Modelled from the spec: the sampled delay before attempt `n`, with
randomized jitter drawn from the pseudo-random seed `j`: the sample is
uniform over `0 .. nominalDelay p n` as `j` ranges over a block of seeds. -/
def sampleDelay (p : BackoffPolicy) (n : Nat) (j : Nat) : Nat :=
  j % (nominalDelay p n + 1)

/-- Expected value of `sampleDelay` over one uniform block of seeds. -/
def expectedDelay (p : BackoffPolicy) (n : Nat) : ℚ :=
  (∑ j in Finset.range (nominalDelay p n + 1), (sampleDelay p n j : ℚ)) /
    (nominalDelay p n + 1)

/- ### Retrying async call (spec section 4.5) -/

/-- Result of one attempt of the remote call, as produced by the remote-call
stub: either a success payload or a failing status code. -/
inductive AttemptOutcome
  | success (v : Nat)
  | failure (c : StatusCode)
deriving DecidableEq

/-- Terminal outcome of a retrying async call, the only values a caller's
continuation can receive (spec section 4.5 state machine). -/
inductive Outcome
  | succeeded (v : Nat)
  | permanentlyFailed
  | exhausted
  | cancelled
deriving DecidableEq

/-- Modelled from the spec: the retrying async call loop of section 4.5.
`b` is the backoff delay before the next attempt, `d` the duration of each
attempt, `stub` the remote-call stub giving each attempt's outcome and
`cancelAt` tells whether the caller's cancellation has been observed before
a given attempt is scheduled.  The first component lists the attempt results
observed internally (one entry per attempt made); the second lists the
result envelopes delivered to the original caller's continuation. -/
def retryLoop (p : RetryPolicy) (b d : Nat → Nat) (stub : Nat → AttemptOutcome)
    (cancelAt : Nat → Bool) (attempt elapsed : Nat) :
    List AttemptOutcome × List Outcome :=
  if cancelAt attempt then ([], [Outcome.cancelled])
  else
    match stub attempt with
    | AttemptOutcome.success v =>
      ([AttemptOutcome.success v], [Outcome.succeeded v])
    | AttemptOutcome.failure c =>
      match hd : retryDecision p c attempt (elapsed + d attempt) with
      | RetryDecision.stopPermanent =>
        ([AttemptOutcome.failure c], [Outcome.permanentlyFailed])
      | RetryDecision.stopExhausted =>
        ([AttemptOutcome.failure c], [Outcome.exhausted])
      | RetryDecision.retry =>
        let rest := retryLoop p b d stub cancelAt (attempt + 1)
          (elapsed + d attempt + b attempt)
        (AttemptOutcome.failure c :: rest.1, rest.2)
termination_by p.maxAttempts - attempt
decreasing_by
  simp only [retryDecision] at hd
  split at hd
  · simp at hd
  · split at hd
    · rename_i hcond
      omega
    · simp at hd

/- ### Completion queue (spec section 4.1) -/

/-- Value handed to a pending operation's continuation when it fires: the
natural result of the call, a cancellation outcome, or a shutdown error for
a schedule call made after shutdown. -/
inductive DeliveredOutcome
  | natural
  | cancelled
  | shutdownError
deriving DecidableEq

/-- External and internal events of the completion queue: a schedule call
(the operation identifier is assigned from the state's counter), a
best-effort cancel, a shutdown, and the internal completion of an in-flight
operation (`cancelWins` tells whether a requested cancellation won the race
against the natural completion). -/
inductive CQEvent
  | schedule
  | cancel (i : Nat)
  | shutdown
  | complete (i : Nat) (cancelWins : Bool)
deriving DecidableEq

/-- Modelled from the spec: the completion queue's observable state — the
operation-identifier counter, the registry of pending operation records
(identifier and cancellation flag), the shutdown flag, and the log of
continuation invocations (most recent first). -/
structure CQState where
  nextId : Nat
  pending : List (Nat × Bool)
  shut : Bool
  fired : List (Nat × DeliveredOutcome)
deriving DecidableEq

/-- The freshly constructed completion queue. -/
def initCQ : CQState := ⟨0, [], false, []⟩

/-- Modelled from the spec: one transition of the completion queue
(section 4.1).  Schedule assigns a fresh identifier and enqueues a pending
record, or fails fast with a shutdown error after shutdown; cancel flags the
matching pending record; shutdown sets the shutdown flag; completion removes
the pending record and fires its continuation exactly once, with a
cancellation outcome when a requested cancellation wins the race. -/
def cqStep (s : CQState) : CQEvent → CQState
  | CQEvent.schedule =>
    if s.shut then
      { s with nextId := s.nextId + 1,
               fired := (s.nextId, DeliveredOutcome.shutdownError) :: s.fired }
    else
      { s with nextId := s.nextId + 1,
               pending := (s.nextId, false) :: s.pending }
  | CQEvent.cancel i =>
    { s with pending := s.pending.map fun pr => if pr.1 = i then (pr.1, true) else pr }
  | CQEvent.shutdown => { s with shut := true }
  | CQEvent.complete i w =>
    match s.pending.find? (fun pr => pr.1 == i) with
    | none => s
    | some pr =>
      { s with pending := s.pending.eraseP (fun q => q.1 == i),
               fired := (i, if pr.2 && w then DeliveredOutcome.cancelled
                            else DeliveredOutcome.natural) :: s.fired }

/-- Run the completion queue from its initial state over a sequence of
events. -/
def runCQ (events : List CQEvent) : CQState := events.foldl cqStep initCQ

/-- Modelled from the spec: process completions for every currently pending
operation, in registry order, as the workers' `Run()` does while draining. -/
def drainCQ (s : CQState) : CQState :=
  match h : s.pending with
  | [] => s
  | (i, _) :: _ => drainCQ (cqStep s (CQEvent.complete i false))
termination_by s.pending.length
decreasing_by
  simp [cqStep, h, List.find?]

/-- Whether a worker's `Run()` returns in this state: shutdown has been
observed and no operations remain outstanding. -/
def runReturns (s : CQState) : Bool := s.shut && s.pending.isEmpty

/-- Bookkeeping invariant of the completion queue: every assigned operation
identifier is accounted for exactly once, either as a pending record or as a
completed (fired) record, and unassigned identifiers appear nowhere. -/
structure CQInv (s : CQState) : Prop where
  once : ∀ i, i < s.nextId →
    (s.pending.map Prod.fst).count i + (s.fired.map Prod.fst).count i = 1
  fresh : ∀ i, s.nextId ≤ i →
    (s.pending.map Prod.fst).count i + (s.fired.map Prod.fst).count i = 0

/- ### RFC-3339 timestamp parsing and formatting (storage collaborator) -/

/-- Value of a decimal digit character; 0 for non-digits. -/
def digitVal (c : Char) : Nat := c.toNat - 48

/-- Whether a character is a decimal digit. -/
def isDigitCh (c : Char) : Bool := 48 ≤ c.toNat && c.toNat ≤ 57

/-- Decimal digit character for a value below 10. -/
def digitCh (v : Nat) : Char := Char.ofNat (48 + v)

/-- Modelled from the spec: a parsed UTC timestamp at the precision of the
platform system clock — the broken-down date-time fields plus the subsecond
part in nanoseconds (already truncated to the clock's tick). -/
structure Rfc3339Time where
  year : Nat
  month : Nat
  day : Nat
  hour : Nat
  minute : Nat
  second : Nat
  nanos : Nat
deriving DecidableEq

/-- Read a two-digit field. -/
def read2 (a b : Char) : Option Nat :=
  if isDigitCh a && isDigitCh b then some (10 * digitVal a + digitVal b) else none

/-- Read the four-digit year field. -/
def read4 (a b c d : Char) : Option Nat :=
  if isDigitCh a && isDigitCh b && isDigitCh c && isDigitCh d then
    some (1000 * digitVal a + 100 * digitVal b + 10 * digitVal c + digitVal d)
  else none

/-- Collect the fractional digit characters standing before the final
mark `Z`; fails when anything else appears or the mark is missing. -/
def fracChars : List Char → Option (List Char)
  | [] => none
  | c :: rest =>
    if c = 'Z' then (if rest = [] then some [] else none)
    else if isDigitCh c then (fracChars rest).map (c :: ·) else none

/-- Numeric value of a list of digit characters read left to right. -/
def fracValue (ds : List Char) : Nat :=
  ds.foldl (fun acc c => 10 * acc + digitVal c) 0

/-- Modelled from the spec: `ParseRfc3339` for UTC timestamps
(`YYYY-MM-DDThh:mm:ssZ` with an optional fraction of one to nine digits).
The fractional part is converted to nanoseconds and truncated to the
platform system clock's tick of `npt` nanoseconds, mirroring the conversion
of the parsed value to a `system_clock::time_point`. -/
def ParseRfc3339 (npt : Nat) (s : String) : Option Rfc3339Time :=
  match s.data with
  | y1 :: y2 :: y3 :: y4 :: '-' :: mo1 :: mo2 :: '-' :: d1 :: d2 :: 'T' ::
      h1 :: h2 :: ':' :: mi1 :: mi2 :: ':' :: se1 :: se2 :: rest =>
    match read4 y1 y2 y3 y4, read2 mo1 mo2, read2 d1 d2,
        read2 h1 h2, read2 mi1 mi2, read2 se1 se2 with
    | some y, some mo, some d, some h, some mi, some se =>
      if 1 ≤ mo ∧ mo ≤ 12 ∧ 1 ≤ d ∧ d ≤ 31 ∧ h ≤ 23 ∧ mi ≤ 59 ∧ se ≤ 59 then
        match rest with
        | ['Z'] => some ⟨y, mo, d, h, mi, se, 0⟩
        | '.' :: fs =>
          match fracChars fs with
          | some ds =>
            if 1 ≤ ds.length ∧ ds.length ≤ 9 then
              some ⟨y, mo, d, h, mi, se,
                fracValue ds * 10 ^ (9 - ds.length) / npt * npt⟩
            else none
          | none => none
        | _ => none
      else none
    | _, _, _, _, _, _ => none
  | _ => none

/-- The fractional digit characters of a timestamp string: what stands
between the dot after the nineteen date-time characters and the final mark,
or the empty list when the string has no dot there. -/
def fracOf (s : String) : Option (List Char) :=
  match s.data with
  | _ :: _ :: _ :: _ :: _ :: _ :: _ :: _ :: _ :: _ :: _ :: _ :: _ :: _ :: _ :: _ ::
      _ :: _ :: _ :: rest =>
    match rest with
    | '.' :: fs => fracChars fs
    | _ => some []
  | _ => none

/-- Two-digit zero-padded decimal print. -/
def pad2 (v : Nat) : List Char := [digitCh (v / 10), digitCh (v % 10)]

/-- Three-digit zero-padded decimal print. -/
def pad3 (v : Nat) : List Char :=
  [digitCh (v / 100), digitCh (v / 10 % 10), digitCh (v % 10)]

/-- Four-digit zero-padded decimal print. -/
def pad4 (v : Nat) : List Char :=
  [digitCh (v / 1000), digitCh (v / 100 % 10), digitCh (v / 10 % 10), digitCh (v % 10)]

/-- Modelled from the spec: the fractional part printed by `FormatRfc3339` —
nothing when the subsecond count is zero, otherwise a dot and the nanosecond
count printed as nine zero-padded digits with trailing all-zero three-digit
groups omitted. -/
def fracPart (nanos : Nat) : List Char :=
  if nanos = 0 then []
  else if nanos % 1000000 = 0 then '.' :: pad3 (nanos / 1000000)
  else if nanos % 1000 = 0 then '.' :: pad3 (nanos / 1000000) ++ pad3 (nanos / 1000 % 1000)
  else '.' :: pad3 (nanos / 1000000) ++ pad3 (nanos / 1000 % 1000) ++ pad3 (nanos % 1000)

/-- Modelled from the spec: `FormatRfc3339`, printing the date-time fields
zero-padded in the `YYYY-MM-DDThh:mm:ssZ` shape with the fractional part of
`fracPart`. -/
def FormatRfc3339 (t : Rfc3339Time) : String :=
  ⟨pad4 t.year ++ '-' :: pad2 t.month ++ '-' :: pad2 t.day ++ 'T' :: pad2 t.hour ++
    ':' :: pad2 t.minute ++ ':' :: pad2 t.second ++ fracPart t.nanos ++ ['Z']⟩

/- ### Bigtable cells and bulk row deletion by prefix -/

/-- One cell of a Bigtable table, as constructed in the integration test:
row key, column family name, column qualifier, timestamp (microseconds),
value and labels. -/
structure Cell where
  rowKey : String
  familyName : String
  columnQualifier : String
  timestamp : Int
  value : String
  labels : List String
deriving DecidableEq

/-- Modelled from the spec: the effect of `AsyncDropRowsByPrefix` on the
table's cells — bulk row deletion removing every cell whose row key begins
with the given prefix. -/
def AsyncDropRowsByPrefix (pfx : String) (cells : List Cell) : List Cell :=
  cells.filter fun c => !(pfx.data.isPrefixOf c.rowKey.data)

/-- The cells the integration test inserts before dropping rows by the
prefix "DropRowPrefix1" (`admin_async_integration_test.cc`). -/
def createdCells : List Cell :=
  [⟨"DropRowPrefix1-Key1", "family1", "column_id1", 0, "v-c-0-0", []⟩,
   ⟨"DropRowPrefix1-Key1", "family1", "column_id1", 1000, "v-c-0-1", []⟩,
   ⟨"DropRowPrefix1-Key1", "family2", "column_id3", 2000, "v-c-0-2", []⟩,
   ⟨"DropRowPrefix1_1-Key1", "family2", "column_id3", 2000, "v-c-0-2", []⟩,
   ⟨"DropRowPrefix1_1-Key1", "family2", "column_id3", 3000, "v-c-0-2", []⟩,
   ⟨"DropRowPrefix2-Key2", "family2", "column_id2", 2000, "v-c0-0-0", []⟩,
   ⟨"DropRowPrefix2-Key2", "family3", "column_id3", 3000, "v-c1-0-2", []⟩]

/-- The cells the integration test expects to remain after the drop. -/
def expectedCells : List Cell :=
  [⟨"DropRowPrefix2-Key2", "family2", "column_id2", 2000, "v-c0-0-0", []⟩,
   ⟨"DropRowPrefix2-Key2", "family3", "column_id3", 3000, "v-c1-0-2", []⟩]

/- ### App profile configuration (app_profile_config.cc) -/

/-- Proto message `MultiClusterRoutingUseAny` (no fields). -/
structure MultiClusterRoutingUseAnyMsg where
deriving DecidableEq

/-- Proto message `SingleClusterRouting`. -/
structure SingleClusterRoutingMsg where
  cluster_id : String
  allow_transactional_writes : Bool
deriving DecidableEq

/-- The routing-policy oneof of the `AppProfile` proto message. -/
inductive RoutingPolicy
  | unset
  | multiClusterRoutingUseAny (m : MultiClusterRoutingUseAnyMsg)
  | singleClusterRouting (m : SingleClusterRoutingMsg)
deriving DecidableEq

/-- The `AppProfile` proto message, restricted to the routing-policy oneof
the embedded functions touch. -/
structure AppProfileMsg where
  routing_policy : RoutingPolicy := RoutingPolicy.unset
deriving DecidableEq

/-- The `CreateAppProfileRequest` proto held by `AppProfileConfig`,
restricted to the fields the embedded functions touch. -/
structure CreateAppProfileRequest where
  app_profile_id : String := ""
  app_profile : AppProfileMsg := {}
deriving DecidableEq

/-- Wrapper class `AppProfileConfig` around its proto. -/
structure AppProfileConfig where
  proto_ : CreateAppProfileRequest := {}
deriving DecidableEq

/-- Embedding of `AppProfileConfig::MultiClusterUseAny`: starts from a
default-constructed config, sets the app-profile id and selects (clears)
the multi-cluster-routing-use-any message. -/
def AppProfileConfig.MultiClusterUseAny (profile_id : String) : AppProfileConfig :=
  { proto_ :=
    { app_profile_id := profile_id,
      app_profile :=
      { routing_policy := RoutingPolicy.multiClusterRoutingUseAny {} } } }

/-- Embedding of `AppProfileConfig::SingleClusterRouting`: starts from a
default-constructed config, sets the app-profile id, and fills the
single-cluster-routing message with the cluster id and the
allow-transactional-writes flag. -/
def AppProfileConfig.SingleClusterRouting (profile_id cluster_id : String)
    (allow_transactional_writes : Bool) : AppProfileConfig :=
  { proto_ :=
    { app_profile_id := profile_id,
      app_profile :=
      { routing_policy :=
        RoutingPolicy.singleClusterRouting ⟨cluster_id, allow_transactional_writes⟩ } } }

/- ### Theorems -/

/-- C10: `AppProfileConfig::SingleClusterRouting` produces a proto with the
given app-profile id, single-cluster routing selected with the given cluster
id and transactional-writes flag; `AppProfileConfig::MultiClusterUseAny`
produces a proto with the given app-profile id and multi-cluster-routing-
use-any selected with an empty routing message. -/
theorem appProfileConfig_correct (pid cid : String) (w : Bool) :
    (AppProfileConfig.MultiClusterUseAny pid).proto_.app_profile_id = pid ∧
    (AppProfileConfig.MultiClusterUseAny pid).proto_.app_profile.routing_policy =
      RoutingPolicy.multiClusterRoutingUseAny {} ∧
    (AppProfileConfig.SingleClusterRouting pid cid w).proto_.app_profile_id = pid ∧
    (AppProfileConfig.SingleClusterRouting pid cid w).proto_.app_profile.routing_policy =
      RoutingPolicy.singleClusterRouting ⟨cid, w⟩ :=
  ⟨rfl, rfl, rfl, rfl⟩

/-- Transient and permanent are disjoint classifications. -/
theorem isTransient_not_isPermanent {c : StatusCode} (h : isTransient c = true) :
    isPermanent c = false := by
  cases c <;> simp_all [isTransient, isPermanent]

/-- One-step reduction of the retry loop when cancellation is observed. -/
theorem retryLoop_cancelled (p : RetryPolicy) (b d : Nat → Nat)
    (stub : Nat → AttemptOutcome) (can : Nat → Bool) (a e : Nat)
    (hc : can a = true) :
    retryLoop p b d stub can a e = ([], [Outcome.cancelled]) := by
  rw [retryLoop]
  simp [hc]

/-- One-step reduction of the retry loop on a successful attempt. -/
theorem retryLoop_success (p : RetryPolicy) (b d : Nat → Nat)
    (stub : Nat → AttemptOutcome) (can : Nat → Bool) (a e v : Nat)
    (hc : can a = false) (hs : stub a = AttemptOutcome.success v) :
    retryLoop p b d stub can a e =
      ([AttemptOutcome.success v], [Outcome.succeeded v]) := by
  rw [retryLoop]
  simp [hc, hs]

/-- One-step reduction of the retry loop on a failure the policy judges
permanent. -/
theorem retryLoop_stopPermanent (p : RetryPolicy) (b d : Nat → Nat)
    (stub : Nat → AttemptOutcome) (can : Nat → Bool) (a e : Nat) (c : StatusCode)
    (hc : can a = false) (hs : stub a = AttemptOutcome.failure c)
    (hd : retryDecision p c a (e + d a) = RetryDecision.stopPermanent) :
    retryLoop p b d stub can a e =
      ([AttemptOutcome.failure c], [Outcome.permanentlyFailed]) := by
  rw [retryLoop]
  simp only [hc, Bool.false_eq_true, if_false, hs]
  split <;> simp_all

/-- One-step reduction of the retry loop on a failure that exhausts the
policy's budget. -/
theorem retryLoop_stopExhausted (p : RetryPolicy) (b d : Nat → Nat)
    (stub : Nat → AttemptOutcome) (can : Nat → Bool) (a e : Nat) (c : StatusCode)
    (hc : can a = false) (hs : stub a = AttemptOutcome.failure c)
    (hd : retryDecision p c a (e + d a) = RetryDecision.stopExhausted) :
    retryLoop p b d stub can a e =
      ([AttemptOutcome.failure c], [Outcome.exhausted]) := by
  rw [retryLoop]
  simp only [hc, Bool.false_eq_true, if_false, hs]
  split <;> simp_all

/-- One-step reduction of the retry loop on a failure the policy retries. -/
theorem retryLoop_retry (p : RetryPolicy) (b d : Nat → Nat)
    (stub : Nat → AttemptOutcome) (can : Nat → Bool) (a e : Nat) (c : StatusCode)
    (hc : can a = false) (hs : stub a = AttemptOutcome.failure c)
    (hd : retryDecision p c a (e + d a) = RetryDecision.retry) :
    retryLoop p b d stub can a e =
      (AttemptOutcome.failure c ::
        (retryLoop p b d stub can (a + 1) (e + d a + b a)).1,
       (retryLoop p b d stub can (a + 1) (e + d a + b a)).2) := by
  rw [retryLoop]
  simp only [hc, Bool.false_eq_true, if_false, hs]
  split <;> simp_all

/-- C3: with a remote-call stub returning a permanent error on the first
attempt, the retrying async call makes exactly one attempt and terminates in
the permanently-failed state, regardless of the configured maximum attempt
count. -/
theorem permanent_short_circuit (p : RetryPolicy) (b d : Nat → Nat)
    (stub : Nat → AttemptOutcome) (c : StatusCode)
    (hperm : isPermanent c = true) (hstub : stub 1 = AttemptOutcome.failure c) :
    retryLoop p b d stub (fun _ => false) 1 0 =
      ([AttemptOutcome.failure c], [Outcome.permanentlyFailed]) := by
  exact retryLoop_stopPermanent p b d stub (fun _ => false) 1 0 c rfl hstub
    (by simp [retryDecision, hperm])

/-- Witness for `permanent_short_circuit` at a concrete policy and stub. -/
theorem permanent_short_circuit_witness :
    retryLoop ⟨5, 1000⟩ (fun _ => 1) (fun _ => 1)
        (fun _ => AttemptOutcome.failure StatusCode.notFound) (fun _ => false) 1 0 =
      ([AttemptOutcome.failure StatusCode.notFound], [Outcome.permanentlyFailed]) :=
  permanent_short_circuit ⟨5, 1000⟩ (fun _ => 1) (fun _ => 1)
    (fun _ => AttemptOutcome.failure StatusCode.notFound) StatusCode.notFound
    (by decide) rfl

/-- C2: with a retry policy whose maximum attempt count is 3, a remote-call
stub that returns a transient error on every attempt, and an elapsed time
that stays below the policy's ceiling, the retrying async call makes exactly
3 attempts (never a fourth) and terminates in the exhausted state. -/
theorem retry_exhaustion (p : RetryPolicy) (b d : Nat → Nat)
    (stub : Nat → AttemptOutcome) (c : StatusCode)
    (hmax : p.maxAttempts = 3) (htr : isTransient c = true)
    (hstub : ∀ n, stub n = AttemptOutcome.failure c)
    (hel : d 1 + b 1 + d 2 < p.maxElapsed) :
    (retryLoop p b d stub (fun _ => false) 1 0).1.length = 3 ∧
    (retryLoop p b d stub (fun _ => false) 1 0).2 = [Outcome.exhausted] := by
  have hnp : isPermanent c = false := isTransient_not_isPermanent htr
  have h1 : retryDecision p c 1 (0 + d 1) = RetryDecision.retry := by
    simp [retryDecision, hnp, hmax]
    omega
  have h2 : retryDecision p c 2 (0 + d 1 + b 1 + d 2) = RetryDecision.retry := by
    simp [retryDecision, hnp, hmax]
    omega
  have h3 : retryDecision p c 3 (0 + d 1 + b 1 + d 2 + b 2 + d 3) =
      RetryDecision.stopExhausted := by
    simp [retryDecision, hnp, hmax]
  rw [retryLoop_retry p b d stub (fun _ => false) 1 0 c rfl (hstub 1) h1]
  rw [retryLoop_retry p b d stub (fun _ => false) 2 (0 + d 1 + b 1) c rfl (hstub 2) h2]
  rw [retryLoop_stopExhausted p b d stub (fun _ => false) 3 (0 + d 1 + b 1 + d 2 + b 2) c
    rfl (hstub 3) h3]
  simp

/-- Witness for `retry_exhaustion` at a concrete policy and stub. -/
theorem retry_exhaustion_witness :
    (retryLoop ⟨3, 1000⟩ (fun _ => 1) (fun _ => 1)
        (fun _ => AttemptOutcome.failure StatusCode.unavailable) (fun _ => false) 1 0).1.length = 3 ∧
    (retryLoop ⟨3, 1000⟩ (fun _ => 1) (fun _ => 1)
        (fun _ => AttemptOutcome.failure StatusCode.unavailable) (fun _ => false) 1 0).2 =
      [Outcome.exhausted] :=
  retry_exhaustion ⟨3, 1000⟩ (fun _ => 1) (fun _ => 1)
    (fun _ => AttemptOutcome.failure StatusCode.unavailable) StatusCode.unavailable
    rfl (by decide) (fun _ => rfl) (by decide)

/-- Closed form of the expected backoff delay: half the nominal delay. -/
theorem expectedDelay_eq (p : BackoffPolicy) (n : Nat) :
    expectedDelay p n = (nominalDelay p n : ℚ) / 2 := by
  unfold expectedDelay
  have hs : ∀ j ∈ Finset.range (nominalDelay p n + 1),
      ((sampleDelay p n j : ℚ)) = (j : ℚ) := by
    intro j hj
    rw [Finset.mem_range] at hj
    simp [sampleDelay, Nat.mod_eq_of_lt hj]
  rw [Finset.sum_congr rfl hs, ← Nat.cast_sum]
  have hnat : (∑ i in Finset.range (nominalDelay p n + 1), i) * 2 =
      (nominalDelay p n + 1) * nominalDelay p n := by
    simpa using Finset.sum_range_id_mul_two (nominalDelay p n + 1)
  have hq : ((∑ i in Finset.range (nominalDelay p n + 1), i : Nat) : ℚ) * 2 =
      ((nominalDelay p n : ℚ) + 1) * (nominalDelay p n : ℚ) := by
    exact_mod_cast congrArg (Nat.cast : Nat → ℚ) hnat
  have hne : ((nominalDelay p n : ℚ) + 1) ≠ 0 := by positivity
  push_cast at hq
  field_simp
  linear_combination hq

/-- The nominal backoff delay is monotone in the attempt number. -/
theorem nominalDelay_mono (p : BackoffPolicy) (n : Nat) :
    nominalDelay p n ≤ nominalDelay p (n + 1) := by
  unfold nominalDelay
  refine min_le_min ?_ le_rfl
  exact Nat.mul_le_mul_left _ (Nat.pow_le_pow_right (by norm_num) (by omega))

/-- C4: the backoff policy's sampled delay is never negative and never
exceeds the configured maximum delay, and its expected value is monotone
non-decreasing in the attempt number. -/
theorem backoff_monotone_bound (p : BackoffPolicy) (n j : Nat) :
    0 ≤ sampleDelay p n j ∧ sampleDelay p n j ≤ p.maxDelay ∧
    expectedDelay p n ≤ expectedDelay p (n + 1) := by
  refine ⟨Nat.zero_le _, ?_, ?_⟩
  · calc sampleDelay p n j ≤ nominalDelay p n :=
      Nat.le_of_lt_succ (Nat.mod_lt _ (Nat.succ_pos _))
    _ ≤ p.maxDelay := min_le_right _ _
  · rw [expectedDelay_eq, expectedDelay_eq]
    have := nominalDelay_mono p n
    have hc : (nominalDelay p n : ℚ) ≤ (nominalDelay p (n + 1) : ℚ) := by
      exact_mod_cast this
    linarith

/-- C8: `AsyncDropRowsByPrefix` removes exactly the cells whose row key
begins with the given prefix: every remaining cell comes from the original
table and its row key does not begin with the prefix, every original cell
whose row key does not begin with the prefix remains, and on the integration
test's concrete table the result is exactly the cell set the test expects. -/
theorem dropRowsByPrefix_frame :
    (∀ (cells : List Cell) (pfx : String) (c : Cell),
      c ∈ AsyncDropRowsByPrefix pfx cells →
        pfx.data.isPrefixOf c.rowKey.data = false ∧ c ∈ cells) ∧
    (∀ (cells : List Cell) (pfx : String) (c : Cell),
      c ∈ cells → pfx.data.isPrefixOf c.rowKey.data = false →
        c ∈ AsyncDropRowsByPrefix pfx cells) ∧
    AsyncDropRowsByPrefix "DropRowPrefix1" createdCells = expectedCells := by
  refine ⟨?_, ?_, by decide⟩
  · intro cells pfx c hc
    rw [AsyncDropRowsByPrefix, List.mem_filter] at hc
    exact ⟨by simpa using hc.2, hc.1⟩
  · intro cells pfx c hc hp
    rw [AsyncDropRowsByPrefix, List.mem_filter]
    exact ⟨hc, by simp [hp]⟩

/-- Flagging a pending record for cancellation changes no identifier. -/
theorem map_fst_setFlag (l : List (Nat × Bool)) (i : Nat) :
    ((l.map fun pr => if pr.1 = i then (pr.1, true) else pr).map Prod.fst) =
      l.map Prod.fst := by
  induction l with
  | nil => rfl
  | cons hd tl ih =>
    simp only [List.map_cons, ih]
    split <;> simp

/-- Erasing the pending record of one identifier erases exactly that
identifier from the registry's identifier list. -/
theorem map_fst_eraseP (l : List (Nat × Bool)) (i : Nat) :
    ((l.eraseP fun q => q.1 == i).map Prod.fst) = (l.map Prod.fst).erase i := by
  induction l with
  | nil => rfl
  | cons hd tl ih =>
    by_cases h : hd.1 = i
    · simp [List.eraseP_cons, List.erase_cons, h]
    · simp [List.eraseP_cons, List.erase_cons, h, ih]

/-- One completion-queue transition preserves the bookkeeping invariant. -/
theorem cqStep_inv {s : CQState} (hs : CQInv s) (e : CQEvent) : CQInv (cqStep s e) := by
  cases e with
  | schedule =>
    by_cases hsh : s.shut
    · have hnext : (cqStep s CQEvent.schedule).nextId = s.nextId + 1 := by
        simp [cqStep, hsh]
      have hpend : (cqStep s CQEvent.schedule).pending = s.pending := by
        simp [cqStep, hsh]
      have hfired : (cqStep s CQEvent.schedule).fired =
          (s.nextId, DeliveredOutcome.shutdownError) :: s.fired := by
        simp [cqStep, hsh]
      constructor <;> intro i hi <;> rw [hnext] at hi <;> rw [hpend, hfired] <;>
        simp only [List.map_cons, List.count_cons, beq_iff_eq]
      · by_cases hieq : i = s.nextId
        · have hz := hs.fresh i (by omega)
          rw [if_pos (show s.nextId = i by omega)]
          omega
        · have h1 := hs.once i (by omega)
          rw [if_neg (show ¬s.nextId = i by omega)]
          omega
      · have hieq : i ≠ s.nextId := by omega
        have hz := hs.fresh i (by omega)
        rw [if_neg (show ¬s.nextId = i by omega)]
        omega
    · have hnext : (cqStep s CQEvent.schedule).nextId = s.nextId + 1 := by
        simp [cqStep, hsh]
      have hpend : (cqStep s CQEvent.schedule).pending =
          (s.nextId, false) :: s.pending := by
        simp [cqStep, hsh]
      have hfired : (cqStep s CQEvent.schedule).fired = s.fired := by
        simp [cqStep, hsh]
      constructor <;> intro i hi <;> rw [hnext] at hi <;> rw [hpend, hfired] <;>
        simp only [List.map_cons, List.count_cons, beq_iff_eq]
      · by_cases hieq : i = s.nextId
        · have hz := hs.fresh i (by omega)
          rw [if_pos (show s.nextId = i by omega)]
          omega
        · have h1 := hs.once i (by omega)
          rw [if_neg (show ¬s.nextId = i by omega)]
          omega
      · have hieq : i ≠ s.nextId := by omega
        have hz := hs.fresh i (by omega)
        rw [if_neg (show ¬s.nextId = i by omega)]
        omega
  | cancel i =>
    have hnext : (cqStep s (CQEvent.cancel i)).nextId = s.nextId := rfl
    have hpend : ((cqStep s (CQEvent.cancel i)).pending.map Prod.fst) =
        s.pending.map Prod.fst := map_fst_setFlag s.pending i
    have hfired : (cqStep s (CQEvent.cancel i)).fired = s.fired := rfl
    constructor <;> intro k hk <;> rw [hnext] at hk <;> rw [hpend, hfired]
    · exact hs.once k hk
    · exact hs.fresh k hk
  | shutdown =>
    constructor <;> intro k hk
    · exact hs.once k hk
    · exact hs.fresh k hk
  | complete i w =>
    rcases hf : s.pending.find? (fun pr => pr.1 == i) with _ | pr
    · have hstep : cqStep s (CQEvent.complete i w) = s := by
        simp [cqStep, hf]
      rw [hstep]
      exact hs
    · have hpr1 : pr.1 = i := by
        simpa using List.find?_some hf
      have hnext : (cqStep s (CQEvent.complete i w)).nextId = s.nextId := by
        simp [cqStep, hf]
      have hpend : (cqStep s (CQEvent.complete i w)).pending =
          s.pending.eraseP (fun q => q.1 == i) := by
        simp [cqStep, hf]
      have hfired : (cqStep s (CQEvent.complete i w)).fired =
          (i, if pr.2 && w then DeliveredOutcome.cancelled
              else DeliveredOutcome.natural) :: s.fired := by
        simp [cqStep, hf]
      have hmem : i ∈ s.pending.map Prod.fst :=
        List.mem_map.mpr ⟨pr, List.mem_of_find?_eq_some hf, hpr1⟩
      have hcnt : 0 < (s.pending.map Prod.fst).count i :=
        List.count_pos_iff.mpr hmem
      have hilt : i < s.nextId := by
        by_contra hge
        have := hs.fresh i (by omega)
        omega
      have honce := hs.once i hilt
      constructor <;> intro k hk <;> rw [hnext] at hk <;> rw [hpend, hfired] <;>
        simp only [map_fst_eraseP, List.map_cons, List.count_cons, beq_iff_eq]
      · by_cases hki : k = i
        · subst hki
          rw [List.count_erase_self, if_pos rfl]
          omega
        · rw [List.count_erase_of_ne hki, if_neg (show ¬i = k by omega)]
          have h1 := hs.once k hk
          omega
      · have hki : k ≠ i := by omega
        rw [List.count_erase_of_ne hki, if_neg (show ¬i = k by omega)]
        have hz := hs.fresh k hk
        omega

/-- Running any event sequence preserves the bookkeeping invariant. -/
theorem foldl_cqStep_inv {s : CQState} (hs : CQInv s) (events : List CQEvent) :
    CQInv (events.foldl cqStep s) := by
  induction events generalizing s with
  | nil => exact hs
  | cons e tl ih => exact ih (cqStep_inv hs e)

/-- The initial completion-queue state satisfies the invariant. -/
theorem initCQ_inv : CQInv initCQ := by
  constructor <;> intro i hi <;> simp [initCQ] at *

/-- The invariant holds after running any event sequence from the start. -/
theorem runCQ_inv (events : List CQEvent) : CQInv (runCQ events) :=
  foldl_cqStep_inv initCQ_inv events

/-- Delivering one outcome envelope per call: the retry loop hands exactly
one element to the caller's continuation, whatever the policies, stub,
cancellation schedule and starting attempt. -/
theorem retryLoop_delivers_one (p : RetryPolicy) (b d : Nat → Nat)
    (stub : Nat → AttemptOutcome) (can : Nat → Bool) :
    ∀ (k a e : Nat), p.maxAttempts - a ≤ k →
      ∃ o : Outcome, (retryLoop p b d stub can a e).2 = [o] := by
  intro k
  induction k with
  | zero =>
    intro a e hk
    rcases hc : can a with _ | _
    · rcases hst : stub a with v | c
      · exact ⟨Outcome.succeeded v, by rw [retryLoop_success p b d stub can a e v hc hst]⟩
      · rcases hdec : retryDecision p c a (e + d a) with _ | _ | _
        · exfalso
          simp only [retryDecision] at hdec
          split at hdec
          · simp at hdec
          · split at hdec
            · rename_i hcond
              omega
            · simp at hdec
        · exact ⟨Outcome.permanentlyFailed,
            by rw [retryLoop_stopPermanent p b d stub can a e c hc hst hdec]⟩
        · exact ⟨Outcome.exhausted,
            by rw [retryLoop_stopExhausted p b d stub can a e c hc hst hdec]⟩
    · exact ⟨Outcome.cancelled, by rw [retryLoop_cancelled p b d stub can a e hc]⟩
  | succ k ih =>
    intro a e hk
    rcases hc : can a with _ | _
    · rcases hst : stub a with v | c
      · exact ⟨Outcome.succeeded v, by rw [retryLoop_success p b d stub can a e v hc hst]⟩
      · rcases hdec : retryDecision p c a (e + d a) with _ | _ | _
        · have hlt : a < p.maxAttempts := by
            simp only [retryDecision] at hdec
            split at hdec
            · simp at hdec
            · split at hdec
              · rename_i hcond
                omega
              · simp at hdec
          obtain ⟨o, ho⟩ := ih (a + 1) (e + d a + b a) (by omega)
          exact ⟨o, by rw [retryLoop_retry p b d stub can a e c hc hst hdec]; exact ho⟩
        · exact ⟨Outcome.permanentlyFailed,
            by rw [retryLoop_stopPermanent p b d stub can a e c hc hst hdec]⟩
        · exact ⟨Outcome.exhausted,
            by rw [retryLoop_stopExhausted p b d stub can a e c hc hst hdec]⟩
    · exact ⟨Outcome.cancelled, by rw [retryLoop_cancelled p b d stub can a e hc]⟩

/-- C1: exactly-once delivery.  For every sequence of schedule, cancel,
shutdown and completion events, every assigned operation identifier is
accounted for exactly once between the pending registry and the continuation
log — so no continuation ever fires twice, and none is dropped; and every
retrying async call delivers exactly one terminal result envelope to its
original caller, however many internal attempts were made. -/
theorem exactly_once_delivery :
    (∀ (events : List CQEvent) (i : Nat), i < (runCQ events).nextId →
      ((runCQ events).pending.map Prod.fst).count i +
        ((runCQ events).fired.map Prod.fst).count i = 1) ∧
    (∀ (p : RetryPolicy) (b d : Nat → Nat) (stub : Nat → AttemptOutcome)
      (can : Nat → Bool) (a e : Nat),
      (retryLoop p b d stub can a e).2.length = 1) := by
  constructor
  · intro events i hi
    exact (runCQ_inv events).once i hi
  · intro p b d stub can a e
    obtain ⟨o, ho⟩ := retryLoop_delivers_one p b d stub can
      (p.maxAttempts - a) a e le_rfl
    rw [ho]
    rfl

/-- Witness for `exactly_once_delivery` at a concrete event sequence. -/
theorem exactly_once_delivery_witness :
    ((runCQ [CQEvent.schedule, CQEvent.complete 0 false]).pending.map Prod.fst).count 0 +
      ((runCQ [CQEvent.schedule, CQEvent.complete 0 false]).fired.map Prod.fst).count 0 = 1 :=
  exactly_once_delivery.1 [CQEvent.schedule, CQEvent.complete 0 false] 0 (by decide)

/-- Draining empties the pending registry, preserves the counter and the
shutdown flag, and fires exactly the previously pending identifiers on top
of the existing continuation log. -/
theorem drainCQ_spec : ∀ (k : Nat) (s : CQState), s.pending.length ≤ k →
    (drainCQ s).pending = [] ∧ (drainCQ s).shut = s.shut ∧
    (drainCQ s).nextId = s.nextId ∧
    ∀ i, ((drainCQ s).fired.map Prod.fst).count i =
      (s.pending.map Prod.fst).count i + (s.fired.map Prod.fst).count i := by
  intro k
  induction k with
  | zero =>
    intro s hk
    have hp : s.pending = [] := List.length_eq_zero.mp (Nat.le_zero.mp hk)
    rw [drainCQ]
    split
    · simp [hp]
    · rename_i i f rest heq
      rw [hp] at heq
      simp at heq
  | succ k ih =>
    intro s hk
    rw [drainCQ]
    split
    · rename_i heq
      simp [heq]
    · rename_i i f rest heq
      have h1 : cqStep s (CQEvent.complete i false) =
          ⟨s.nextId, rest, s.shut, (i, DeliveredOutcome.natural) :: s.fired⟩ := by
        simp [cqStep, heq, List.find?]
      rw [h1]
      have hlen : rest.length ≤ k := by
        have hx : s.pending.length ≤ k + 1 := hk
        rw [heq] at hx
        simpa using hx
      obtain ⟨hp, hsh, hn, hcount⟩ := ih
        (⟨s.nextId, rest, s.shut, (i, DeliveredOutcome.natural) :: s.fired⟩ : CQState)
        (by simpa using hlen)
      refine ⟨hp, hsh, hn, ?_⟩
      intro j
      have hcj : ((drainCQ (⟨s.nextId, rest, s.shut,
            (i, DeliveredOutcome.natural) :: s.fired⟩ : CQState)).fired.map
            Prod.fst).count j =
          (rest.map Prod.fst).count j +
            (((i, DeliveredOutcome.natural) :: s.fired).map Prod.fst).count j :=
        hcount j
      rw [heq]
      simp only [List.map_cons, List.count_cons, beq_iff_eq] at hcj ⊢
      by_cases hji : i = j
      · rw [if_pos hji] at hcj ⊢
        omega
      · rw [if_neg hji] at hcj ⊢
        omega

/-- C5: shutdown drains.  Shutdown is idempotent; a schedule call made after
shutdown enqueues nothing and fails fast, firing its continuation with a
shutdown error; and after shutdown, draining the outstanding operations
brings the queue to a state where the workers' `Run()` returns, with every
operation scheduled before the shutdown having fired exactly once. -/
theorem shutdown_drains :
    (∀ s : CQState,
      cqStep (cqStep s CQEvent.shutdown) CQEvent.shutdown = cqStep s CQEvent.shutdown) ∧
    (∀ s : CQState, s.shut = true →
      (cqStep s CQEvent.schedule).pending = s.pending ∧
      (cqStep s CQEvent.schedule).fired =
        (s.nextId, DeliveredOutcome.shutdownError) :: s.fired) ∧
    (∀ events : List CQEvent,
      runReturns (drainCQ (cqStep (runCQ events) CQEvent.shutdown)) = true ∧
      ∀ i, i < (runCQ events).nextId →
        ((drainCQ (cqStep (runCQ events) CQEvent.shutdown)).fired.map Prod.fst).count i = 1) := by
  refine ⟨?_, ?_, ?_⟩
  · intro s
    simp [cqStep]
  · intro s hsh
    constructor <;> simp [cqStep, hsh]
  · intro events
    set s := cqStep (runCQ events) CQEvent.shutdown with hsdef
    have hnext : s.nextId = (runCQ events).nextId := rfl
    have hpend : s.pending = (runCQ events).pending := rfl
    have hfired : s.fired = (runCQ events).fired := rfl
    have hshut : s.shut = true := rfl
    obtain ⟨hp, hsh, hn, hcount⟩ := drainCQ_spec s.pending.length s le_rfl
    constructor
    · rw [runReturns, hp, hsh, hshut]
      rfl
    · intro i hi
      have h1 := (runCQ_inv events).once i hi
      rw [hcount i, hpend, hfired]
      omega

/-- Witness for `shutdown_drains` at a concrete event sequence and state. -/
theorem shutdown_drains_witness :
    runReturns (drainCQ (cqStep (runCQ [CQEvent.schedule]) CQEvent.shutdown)) = true ∧
    ((drainCQ (cqStep (runCQ [CQEvent.schedule]) CQEvent.shutdown)).fired.map
      Prod.fst).count 0 = 1 ∧
    (cqStep (⟨1, [], true, []⟩ : CQState) CQEvent.schedule).pending = [] :=
  ⟨(shutdown_drains.2.2 [CQEvent.schedule]).1,
   (shutdown_drains.2.2 [CQEvent.schedule]).2 0 (by decide),
   (shutdown_drains.2.1 ⟨1, [], true, []⟩ rfl).1⟩

/-- Cancelling flags the matching record, so a later lookup finds it with
the cancellation flag set. -/
theorem find?_setFlag (l : List (Nat × Bool)) (i : Nat) (pr : Nat × Bool)
    (h : l.find? (fun q => q.1 == i) = some pr) :
    ((l.map fun q => if q.1 = i then (q.1, true) else q).find? (fun q => q.1 == i)) =
      some (i, true) := by
  induction l with
  | nil => simp at h
  | cons hd tl ih =>
    by_cases hh : hd.1 = i
    · have hpred : ((fun q : Nat × Bool => q.1 == i) (hd.1, true)) = true := by
        simpa using hh
      simp only [List.map_cons, if_pos hh]
      rw [List.find?_cons_of_pos (p := fun q : Nat × Bool => q.1 == i) _ hpred]
      rw [hh]
    · have hpred : ¬ ((fun q : Nat × Bool => q.1 == i) hd = true) := by
        simpa using hh
      have htl : tl.find? (fun q => q.1 == i) = some pr := by
        rwa [List.find?_cons_of_neg (p := fun q : Nat × Bool => q.1 == i) _ hpred] at h
      simp only [List.map_cons, if_neg hh]
      rw [List.find?_cons_of_neg (p := fun q : Nat × Bool => q.1 == i) _ hpred]
      exact ih htl

/-- C7: cancellation idempotence.  Calling cancel twice on the same
operation leaves the queue in the same state as calling it once; the cancel
call itself fires no continuation; and when a flagged operation completes,
its continuation fires once, with a cancellation outcome exactly when the
cancellation wins the race, otherwise with the naturally produced result. -/
theorem cancel_idempotent :
    (∀ (s : CQState) (i : Nat),
      cqStep (cqStep s (CQEvent.cancel i)) (CQEvent.cancel i) =
        cqStep s (CQEvent.cancel i)) ∧
    (∀ (s : CQState) (i : Nat), (cqStep s (CQEvent.cancel i)).fired = s.fired) ∧
    (∀ (s : CQState) (i : Nat) (w : Bool) (pr : Nat × Bool),
      s.pending.find? (fun q => q.1 == i) = some pr →
      (cqStep (cqStep s (CQEvent.cancel i)) (CQEvent.complete i w)).fired =
        (i, if w then DeliveredOutcome.cancelled else DeliveredOutcome.natural) ::
          s.fired) := by
  refine ⟨?_, ?_, ?_⟩
  · intro s i
    simp only [cqStep, List.map_map]
    congr 1
    apply List.map_congr_left
    intro pr _
    by_cases h : pr.1 = i <;> simp [h]
  · intro s i
    rfl
  · intro s i w pr h
    have hf := find?_setFlag s.pending i pr h
    simp only [cqStep]
    rw [hf]
    simp

/-- Witness for `cancel_idempotent` at a concrete queue state. -/
theorem cancel_idempotent_witness :
    (cqStep (cqStep (⟨1, [(0, false)], false, []⟩ : CQState) (CQEvent.cancel 0))
        (CQEvent.complete 0 true)).fired = [(0, DeliveredOutcome.cancelled)] := by
  have h := cancel_idempotent.2.2 (⟨1, [(0, false)], false, []⟩ : CQState) 0 true
    (0, false) (by decide)
  rw [h]
  decide

/-- C6: transient errors are fully absorbed.  Whatever the policies, the
remote-call stub (however many transient failures it produces) and the
cancellation schedule, the caller's continuation receives exactly one value,
and it is a terminal outcome — succeeded, permanently-failed, exhausted or
cancelled. -/
theorem transient_errors_absorbed (p : RetryPolicy) (b d : Nat → Nat)
    (stub : Nat → AttemptOutcome) (can : Nat → Bool) (a e : Nat) :
    ∃ o : Outcome, (retryLoop p b d stub can a e).2 = [o] ∧
      ((∃ v, o = Outcome.succeeded v) ∨ o = Outcome.permanentlyFailed ∨
        o = Outcome.exhausted ∨ o = Outcome.cancelled) := by
  obtain ⟨o, ho⟩ := retryLoop_delivers_one p b d stub can (p.maxAttempts - a) a e le_rfl
  refine ⟨o, ho, ?_⟩
  cases o with
  | succeeded v => exact Or.inl ⟨v, rfl⟩
  | permanentlyFailed => exact Or.inr (Or.inl rfl)
  | exhausted => exact Or.inr (Or.inr (Or.inl rfl))
  | cancelled => exact Or.inr (Or.inr (Or.inr rfl))

/-- Witness for `dropRowsByPrefix_frame` at the integration test's data. -/
theorem dropRowsByPrefix_frame_witness :
    ("DropRowPrefix1" : String).data.isPrefixOf
        ("DropRowPrefix2-Key2" : String).data = false ∧
    (⟨"DropRowPrefix2-Key2", "family2", "column_id2", 2000, "v-c0-0-0", []⟩ : Cell) ∈
      createdCells :=
  dropRowsByPrefix_frame.1 createdCells "DropRowPrefix1"
    ⟨"DropRowPrefix2-Key2", "family2", "column_id2", 2000, "v-c0-0-0", []⟩
    (by decide)

/-- Printing a digit character's value gives the character back, and the
value is a digit. -/
theorem digitCh_digitVal {c : Char} (h : isDigitCh c = true) :
    digitCh (digitVal c) = c ∧ digitVal c ≤ 9 := by
  have hh : 48 ≤ c.toNat ∧ c.toNat ≤ 57 := by
    simpa [isDigitCh] using h
  constructor
  · have he : 48 + (c.toNat - 48) = c.toNat := by omega
    rw [digitCh, digitVal, he, Char.ofNat_toNat]
  · rw [digitVal]
    omega

/-- A two-digit field read back from its characters prints to them. -/
theorem read2_pad2 {a b : Char} {v : Nat} (h : read2 a b = some v) :
    pad2 v = [a, b] ∧ v ≤ 99 := by
  rw [read2] at h
  split at h
  · rename_i hcond
    rw [Bool.and_eq_true] at hcond
    obtain ⟨ha1, ha2⟩ := digitCh_digitVal hcond.1
    obtain ⟨hb1, hb2⟩ := digitCh_digitVal hcond.2
    injection h with hv
    constructor
    · rw [pad2]
      have h10 : v / 10 = digitVal a := by omega
      have h1 : v % 10 = digitVal b := by omega
      rw [h10, h1, ha1, hb1]
    · omega
  · exact absurd h (by simp)

/-- A four-digit field read back from its characters prints to them. -/
theorem read4_pad4 {a b c d : Char} {v : Nat} (h : read4 a b c d = some v) :
    pad4 v = [a, b, c, d] ∧ v ≤ 9999 := by
  rw [read4] at h
  split at h
  · rename_i hcond
    simp only [Bool.and_eq_true] at hcond
    obtain ⟨⟨⟨ha, hb⟩, hc⟩, hd⟩ := hcond
    obtain ⟨ha1, ha2⟩ := digitCh_digitVal ha
    obtain ⟨hb1, hb2⟩ := digitCh_digitVal hb
    obtain ⟨hc1, hc2⟩ := digitCh_digitVal hc
    obtain ⟨hd1, hd2⟩ := digitCh_digitVal hd
    injection h with hv
    constructor
    · rw [pad4]
      have e1 : v / 1000 = digitVal a := by omega
      have e2 : v / 100 % 10 = digitVal b := by omega
      have e3 : v / 10 % 10 = digitVal c := by omega
      have e4 : v % 10 = digitVal d := by omega
      rw [e1, e2, e3, e4, ha1, hb1, hc1, hd1]
    · omega
  · exact absurd h (by simp)

/-- Inversion of the fraction scanner: the scanned characters are the
digits standing before the final mark. -/
theorem fracChars_inversion : ∀ (l ds : List Char),
    fracChars l = some ds → l = ds ++ ['Z'] ∧ ∀ c ∈ ds, isDigitCh c = true := by
  intro l
  induction l with
  | nil =>
    intro ds h
    rw [fracChars] at h
    exact absurd h (by simp)
  | cons c rest ih =>
    intro ds h
    rw [fracChars] at h
    split at h
    · rename_i hz
      split at h
      · rename_i hr
        injection h with hds
        subst hds
        subst hz
        subst hr
        simp
      · exact absurd h (by simp)
    · rename_i hz
      split at h
      · rename_i hdig
        rcases ho : fracChars rest with _ | ds0
        · rw [ho] at h
          exact absurd h (by simp)
        · rw [ho] at h
          simp only [Option.map_some'] at h
          injection h with hds
          subst hds
          obtain ⟨hrest, hdigs⟩ := ih ds0 ho
          subst hrest
          refine ⟨by simp, ?_⟩
          intro x hx
          rcases List.mem_cons.mp hx with hx | hx
          · subst hx
            exact hdig
          · exact hdigs x hx
      · exact absurd h (by simp)

/-- Folding the digit accumulator from any seed. -/
theorem fracValue_foldl (l : List Char) : ∀ a : Nat,
    l.foldl (fun acc c => 10 * acc + digitVal c) a =
      a * 10 ^ l.length + fracValue l := by
  induction l with
  | nil =>
    intro a
    simp [fracValue]
  | cons c tl ih =>
    intro a
    have hv : fracValue (c :: tl) = digitVal c * 10 ^ tl.length + fracValue tl := by
      rw [fracValue]
      simp only [List.foldl_cons]
      rw [ih (10 * 0 + digitVal c)]
      ring_nf
    simp only [List.foldl_cons]
    rw [ih (10 * a + digitVal c), hv, List.length_cons]
    ring

/-- Value of a digit list split at a group boundary. -/
theorem fracValue_append (xs ys : List Char) :
    fracValue (xs ++ ys) = fracValue xs * 10 ^ ys.length + fracValue ys := by
  rw [fracValue, List.foldl_append]
  rw [fracValue_foldl ys]
  rfl

/-- Digit lists denote values below the corresponding power of ten. -/
theorem fracValue_lt (ds : List Char) (h : ∀ c ∈ ds, isDigitCh c = true) :
    fracValue ds < 10 ^ ds.length := by
  induction ds with
  | nil => simp [fracValue]
  | cons c tl ih =>
    have hc := (digitCh_digitVal (h c (by simp))).2
    have ht := ih (fun x hx => h x (by simp [hx]))
    have hv : fracValue (c :: tl) = digitVal c * 10 ^ tl.length + fracValue tl := by
      rw [fracValue]
      simp only [List.foldl_cons]
      rw [fracValue_foldl tl (10 * 0 + digitVal c)]
      ring_nf
    rw [hv, List.length_cons, pow_succ]
    nlinarith [pow_pos (show 0 < 10 by norm_num) tl.length]

/-- A three-digit group prints back to its characters. -/
theorem pad3_fracValue (ds : List Char) (h3 : ds.length = 3)
    (h : ∀ c ∈ ds, isDigitCh c = true) :
    pad3 (fracValue ds) = ds ∧ fracValue ds < 1000 := by
  rcases ds with _ | ⟨a, _ | ⟨b, _ | ⟨c, _ | ⟨d, tl⟩⟩⟩⟩ <;> simp at h3
  obtain ⟨ha1, ha2⟩ := digitCh_digitVal (h a (by simp))
  obtain ⟨hb1, hb2⟩ := digitCh_digitVal (h b (by simp))
  obtain ⟨hc1, hc2⟩ := digitCh_digitVal (h c (by simp))
  have hv : fracValue [a, b, c] =
      100 * digitVal a + 10 * digitVal b + digitVal c := by
    simp [fracValue]
    ring
  constructor
  · rw [pad3, hv]
    have e1 : (100 * digitVal a + 10 * digitVal b + digitVal c) / 100 = digitVal a := by
      omega
    have e2 : (100 * digitVal a + 10 * digitVal b + digitVal c) / 10 % 10 =
        digitVal b := by
      omega
    have e3 : (100 * digitVal a + 10 * digitVal b + digitVal c) % 10 = digitVal c := by
      omega
    rw [e1, e2, e3, ha1, hb1, hc1]
  · rw [hv]
    omega

/-- A six-digit group prints back to its characters in two three-digit
groups. -/
theorem pad6_fracValue (ds : List Char) (h6 : ds.length = 6)
    (h : ∀ c ∈ ds, isDigitCh c = true) :
    pad3 (fracValue ds / 1000) ++ pad3 (fracValue ds % 1000) = ds ∧
      fracValue ds < 1000000 := by
  rcases ds with _ | ⟨a, _ | ⟨b, _ | ⟨c, _ | ⟨d, _ | ⟨e, _ | ⟨f, _ | ⟨g, tl⟩⟩⟩⟩⟩⟩⟩ <;>
    simp at h6
  have hv : fracValue [a, b, c, d, e, f] =
      fracValue [a, b, c] * 1000 + fracValue [d, e, f] := by
    have hx := fracValue_append [a, b, c] [d, e, f]
    simpa using hx
  have hd1 : ∀ x ∈ ([a, b, c] : List Char), isDigitCh x = true := by
    intro x hx
    apply h
    simp only [List.mem_cons, List.not_mem_nil, or_false] at hx
    rcases hx with hx | hx | hx <;> simp [hx]
  have hd2 : ∀ x ∈ ([d, e, f] : List Char), isDigitCh x = true := by
    intro x hx
    apply h
    simp only [List.mem_cons, List.not_mem_nil, or_false] at hx
    rcases hx with hx | hx | hx <;> simp [hx]
  obtain ⟨hp1, hl1⟩ := pad3_fracValue [a, b, c] rfl hd1
  obtain ⟨hp2, hl2⟩ := pad3_fracValue [d, e, f] rfl hd2
  have e1 : fracValue [a, b, c, d, e, f] / 1000 = fracValue [a, b, c] := by
    rw [hv]
    omega
  have e2 : fracValue [a, b, c, d, e, f] % 1000 = fracValue [d, e, f] := by
    rw [hv]
    omega
  refine ⟨?_, by rw [hv]; omega⟩
  rw [e1, e2, hp1, hp2]
  rfl

/-- A nine-digit group prints back to its characters in three three-digit
groups. -/
theorem pad9_fracValue (ds : List Char) (h9 : ds.length = 9)
    (h : ∀ c ∈ ds, isDigitCh c = true) :
    pad3 (fracValue ds / 1000000) ++ pad3 (fracValue ds / 1000 % 1000) ++
      pad3 (fracValue ds % 1000) = ds ∧ fracValue ds < 1000000000 := by
  rcases ds with _ | ⟨a, _ | ⟨b, _ | ⟨c, _ | ⟨d, _ | ⟨e, _ | ⟨f, _ | ⟨g, _ |
    ⟨i, _ | ⟨j, _ | ⟨k, tl⟩⟩⟩⟩⟩⟩⟩⟩⟩⟩ <;> simp at h9
  have hv : fracValue [a, b, c, d, e, f, g, i, j] =
      fracValue [a, b, c] * 1000000 + fracValue [d, e, f] * 1000 +
        fracValue [g, i, j] := by
    have hx := fracValue_append [a, b, c] [d, e, f, g, i, j]
    have hy := fracValue_append [d, e, f] [g, i, j]
    simp only [show ([a, b, c] : List Char) ++ [d, e, f, g, i, j] =
        [a, b, c, d, e, f, g, i, j] from rfl,
      show ([d, e, f] : List Char) ++ [g, i, j] = [d, e, f, g, i, j] from rfl,
      List.length_cons, List.length_nil] at hx hy
    rw [hx, hy]
    norm_num
    ring
  have hd1 : ∀ x ∈ ([a, b, c] : List Char), isDigitCh x = true := by
    intro x hx
    apply h
    simp only [List.mem_cons, List.not_mem_nil, or_false] at hx
    rcases hx with hx | hx | hx <;> simp [hx]
  have hd2 : ∀ x ∈ ([d, e, f] : List Char), isDigitCh x = true := by
    intro x hx
    apply h
    simp only [List.mem_cons, List.not_mem_nil, or_false] at hx
    rcases hx with hx | hx | hx <;> simp [hx]
  have hd3 : ∀ x ∈ ([g, i, j] : List Char), isDigitCh x = true := by
    intro x hx
    apply h
    simp only [List.mem_cons, List.not_mem_nil, or_false] at hx
    rcases hx with hx | hx | hx <;> simp [hx]
  obtain ⟨hp1, hl1⟩ := pad3_fracValue [a, b, c] rfl hd1
  obtain ⟨hp2, hl2⟩ := pad3_fracValue [d, e, f] rfl hd2
  obtain ⟨hp3, hl3⟩ := pad3_fracValue [g, i, j] rfl hd3
  have e1 : fracValue [a, b, c, d, e, f, g, i, j] / 1000000 =
      fracValue [a, b, c] := by
    rw [hv]
    omega
  have e2 : fracValue [a, b, c, d, e, f, g, i, j] / 1000 % 1000 =
      fracValue [d, e, f] := by
    rw [hv]
    omega
  have e3 : fracValue [a, b, c, d, e, f, g, i, j] % 1000 =
      fracValue [g, i, j] := by
    rw [hv]
    omega
  refine ⟨?_, by rw [hv]; omega⟩
  rw [e1, e2, e3, hp1, hp2, hp3]
  rfl

/-- The fraction scanner accepts any digit run followed by the final mark. -/
theorem fracChars_print (ds : List Char) (h : ∀ c ∈ ds, isDigitCh c = true) :
    fracChars (ds ++ ['Z']) = some ds := by
  induction ds with
  | nil =>
    simp only [List.nil_append]
    decide
  | cons c tl ih =>
    have hc : isDigitCh c = true := h c (by simp)
    have hz : ¬c = 'Z' := by
      intro hcz
      rw [hcz] at hc
      simp [isDigitCh] at hc
    rw [List.cons_append, fracChars, if_neg hz, if_pos hc,
      ih (fun x hx => h x (by simp [hx]))]
    rfl

/-- Truncation to the clock tick keeps the millisecond count when the tick
divides one millisecond. -/
theorem trunc_div_million {x npt : Nat} (h0 : 0 < npt) (h : npt ∣ 1000000) :
    x / npt * npt / 1000000 = x / 1000000 := by
  have hmod : x % 1000000 % npt = x % npt := Nat.mod_mod_of_dvd x h
  have hx1 : x % npt + x / npt * npt = x := by
    rw [mul_comm]
    exact Nat.mod_add_div x npt
  have hq : x = 1000000 * (x / 1000000) + x % 1000000 := (Nat.div_add_mod x 1000000).symm
  have hr : x % 1000000 < 1000000 := Nat.mod_lt _ (by norm_num)
  have hrn : x % npt ≤ x % 1000000 := by
    rw [← hmod]
    exact Nat.mod_le _ _
  have hxe : x / npt * npt = 1000000 * (x / 1000000) + (x % 1000000 - x % npt) := by
    omega
  rw [hxe, Nat.mul_add_div (by norm_num)]
  have hz : (x % 1000000 - x % npt) / 1000000 = 0 := Nat.div_eq_of_lt (by omega)
  omega

/-- Inversion of `ParseRfc3339`: a successfully parsed string is the
zero-padded print of the parsed fields followed by its fraction part, which
is either absent (nanoseconds zero) or a run of one to nine digits whose
value, scaled to nanoseconds and truncated to the clock tick, is the parsed
subsecond count. -/
theorem ParseRfc3339_inversion {npt : Nat} {s : String} {t : Rfc3339Time}
    (h : ParseRfc3339 npt s = some t) :
    ∃ rest,
      s.data = pad4 t.year ++ '-' :: (pad2 t.month ++ '-' :: (pad2 t.day ++ 'T' ::
        (pad2 t.hour ++ ':' :: (pad2 t.minute ++ ':' :: (pad2 t.second ++ rest))))) ∧
      ((rest = ['Z'] ∧ t.nanos = 0) ∨
        (∃ ds, rest = '.' :: (ds ++ ['Z']) ∧ (∀ c ∈ ds, isDigitCh c = true) ∧
          1 ≤ ds.length ∧ ds.length ≤ 9 ∧
          t.nanos = fracValue ds * 10 ^ (9 - ds.length) / npt * npt)) := by
  rw [ParseRfc3339] at h
  split at h
  · rename_i y1 y2 y3 y4 mo1 mo2 dd1 dd2 hh1 hh2 mi1 mi2 se1 se2 rest0 heq
    split at h
    · rename_i y mo d hr mi se heq1 heq2 heq3 heq4 heq5 heq6
      split at h
      · rename_i hrange
        obtain ⟨hp4, hb4⟩ := read4_pad4 heq1
        obtain ⟨hpm, hbm⟩ := read2_pad2 heq2
        obtain ⟨hpd, hbd⟩ := read2_pad2 heq3
        obtain ⟨hph, hbh⟩ := read2_pad2 heq4
        obtain ⟨hpmi, hbmi⟩ := read2_pad2 heq5
        obtain ⟨hpse, hbse⟩ := read2_pad2 heq6
        split at h
        · injection h with ht
          subst ht
          refine ⟨['Z'], ?_, Or.inl ⟨rfl, rfl⟩⟩
          rw [heq]
          simp [hp4, hpm, hpd, hph, hpmi, hpse]
        · rename_i fs
          split at h
          · rename_i ds heqf
            split at h
            · rename_i hlen
              injection h with ht
              subst ht
              obtain ⟨hfs, hdigs⟩ := fracChars_inversion fs ds heqf
              refine ⟨'.' :: (ds ++ ['Z']), ?_, Or.inr ⟨ds, rfl, hdigs, hlen.1, hlen.2, rfl⟩⟩
              rw [heq, hfs]
              simp [hp4, hpm, hpd, hph, hpmi, hpse]
            · exact absurd h (by simp)
          · exact absurd h (by simp)
        · exact absurd h (by simp)
      · exact absurd h (by simp)
    · exact absurd h (by simp)
  · exact absurd h (by simp)

/-- C9 (amended): formatting after parsing round-trips exactly on the
canonical fraction shapes.  For a valid UTC timestamp string parsed at a
clock tick that divides one millisecond: with no fractional part, or with a
three-digit fractional part of nonzero value, formatting the parsed
timestamp returns the original string; a six-digit fraction whose last group
is nonzero round-trips when the tick divides one microsecond, and a
nine-digit fraction whose last group is nonzero round-trips at nanosecond
ticks; for six- or nine-digit fractions with a nonzero millisecond part the
formatted result always begins with the millisecond-truncated form of the
input. -/
theorem rfc3339_roundtrip (npt : Nat) (s : String) (t : Rfc3339Time)
    (h0 : 0 < npt) (h6 : npt ∣ 1000000)
    (hparse : ParseRfc3339 npt s = some t) :
    (fracOf s = some [] → FormatRfc3339 t = s) ∧
    (∀ ds, fracOf s = some ds → ds.length = 3 → fracValue ds ≠ 0 →
      FormatRfc3339 t = s) ∧
    (∀ ds, fracOf s = some ds → ds.length = 6 → fracValue ds % 1000 ≠ 0 →
      npt ∣ 1000 → FormatRfc3339 t = s) ∧
    (∀ ds, fracOf s = some ds → ds.length = 9 → fracValue ds % 1000 ≠ 0 →
      npt = 1 → FormatRfc3339 t = s) ∧
    (∀ ds, fracOf s = some ds → (ds.length = 6 ∨ ds.length = 9) →
      fracValue ds / 10 ^ (ds.length - 3) ≠ 0 →
      ∃ tail, (FormatRfc3339 t).data =
        s.data.take 19 ++ '.' :: (pad3 (fracValue ds / 10 ^ (ds.length - 3)) ++ tail)) := by
  obtain ⟨rest, hdata, hcases⟩ := ParseRfc3339_inversion hparse
  rcases hcases with ⟨hrest, hnan⟩ | ⟨ds0, hrest, hdigs, hlen1, hlen9, hnan⟩
  · subst hrest
    have hfo : fracOf s = some [] := by
      simp [fracOf, hdata, pad4, pad2]
    refine ⟨?_, ?_, ?_, ?_, ?_⟩
    · intro _
      apply String.ext
      rw [hdata]
      simp [FormatRfc3339, fracPart, hnan]
    · intro ds hds hlen _
      rw [hfo] at hds
      injection hds with he
      rw [← he] at hlen
      simp at hlen
    · intro ds hds hlen _ _
      rw [hfo] at hds
      injection hds with he
      rw [← he] at hlen
      simp at hlen
    · intro ds hds hlen _ _
      rw [hfo] at hds
      injection hds with he
      rw [← he] at hlen
      simp at hlen
    · intro ds hds hlen _
      rw [hfo] at hds
      injection hds with he
      rw [← he] at hlen
      simp at hlen
  · subst hrest
    have hfo : fracOf s = some ds0 := by
      simp [fracOf, hdata, pad4, pad2, fracChars_print ds0 hdigs]
    refine ⟨?_, ?_, ?_, ?_, ?_⟩
    · intro h1
      rw [hfo] at h1
      injection h1 with he
      rw [he] at hlen1
      simp at hlen1
    · intro ds hds hlen hval
      rw [hfo] at hds
      injection hds with he
      subst he
      have hdvd : npt ∣ fracValue ds0 * 1000000 := Dvd.dvd.mul_left h6 _
      have hnan2 : t.nanos = fracValue ds0 * 1000000 := by
        rw [hnan, hlen]
        norm_num
        exact Nat.div_mul_cancel hdvd
      obtain ⟨hp3, hlt3⟩ := pad3_fracValue ds0 hlen hdigs
      have hfp : fracPart t.nanos = '.' :: ds0 := by
        rw [hnan2, fracPart]
        have hne : ¬fracValue ds0 * 1000000 = 0 := by
          intro hz
          exact hval (by omega)
        rw [if_neg hne, if_pos (Nat.mul_mod_left _ _),
          Nat.mul_div_cancel _ (by norm_num), hp3]
      apply String.ext
      rw [hdata]
      simp only [FormatRfc3339, hfp]
      simp [List.append_assoc]
    · intro ds hds hlen hval hq3
      rw [hfo] at hds
      injection hds with he
      subst he
      have hdvd : npt ∣ fracValue ds0 * 1000 := Dvd.dvd.mul_left hq3 _
      have hnan2 : t.nanos = fracValue ds0 * 1000 := by
        rw [hnan, hlen]
        norm_num
        exact Nat.div_mul_cancel hdvd
      obtain ⟨hp6, hlt6⟩ := pad6_fracValue ds0 hlen hdigs
      have hvnz : fracValue ds0 ≠ 0 := by
        intro hz
        rw [hz] at hval
        simp at hval
      have hfp : fracPart t.nanos = '.' :: ds0 := by
        rw [hnan2, fracPart]
        have hne : ¬fracValue ds0 * 1000 = 0 := by
          intro hz
          exact hvnz (by omega)
        have hne6 : ¬fracValue ds0 * 1000 % 1000000 = 0 := by
          intro hz
          exact hval (by omega)
        rw [if_neg hne, if_neg hne6, if_pos (Nat.mul_mod_left _ _)]
        have e1 : fracValue ds0 * 1000 / 1000000 = fracValue ds0 / 1000 := by
          rw [show (1000000 : Nat) = 1000 * 1000 from rfl,
            ← Nat.div_div_eq_div_mul, Nat.mul_div_cancel _ (by norm_num)]
        have e2 : fracValue ds0 * 1000 / 1000 % 1000 = fracValue ds0 % 1000 := by
          rw [Nat.mul_div_cancel _ (by norm_num)]
        rw [e1, e2]
        rw [show ('.' :: pad3 (fracValue ds0 / 1000) ++ pad3 (fracValue ds0 % 1000)) =
          '.' :: (pad3 (fracValue ds0 / 1000) ++ pad3 (fracValue ds0 % 1000)) from rfl, hp6]
      apply String.ext
      rw [hdata]
      simp only [FormatRfc3339, hfp]
      simp [List.append_assoc]
    · intro ds hds hlen hval hq1
      rw [hfo] at hds
      injection hds with he
      subst he
      subst hq1
      have hnan2 : t.nanos = fracValue ds0 := by
        rw [hnan, hlen]
        norm_num
      obtain ⟨hp9, hlt9⟩ := pad9_fracValue ds0 hlen hdigs
      have hvnz : fracValue ds0 ≠ 0 := by
        intro hz
        rw [hz] at hval
        simp at hval
      have hfp : fracPart t.nanos = '.' :: ds0 := by
        rw [hnan2, fracPart]
        have hne6 : ¬fracValue ds0 % 1000000 = 0 := by
          intro hz
          exact hval (by omega)
        have hne3 : ¬fracValue ds0 % 1000 = 0 := hval
        rw [if_neg hvnz, if_neg hne6, if_neg hne3]
        rw [show ('.' :: pad3 (fracValue ds0 / 1000000) ++
            pad3 (fracValue ds0 / 1000 % 1000) ++ pad3 (fracValue ds0 % 1000)) =
          '.' :: (pad3 (fracValue ds0 / 1000000) ++ pad3 (fracValue ds0 / 1000 % 1000) ++
            pad3 (fracValue ds0 % 1000)) from rfl, hp9]
      apply String.ext
      rw [hdata]
      simp only [FormatRfc3339, hfp]
      simp [List.append_assoc]
    · intro ds hds hlen69 hms
      rw [hfo] at hds
      injection hds with he
      subst he
      have hq : t.nanos / 1000000 = fracValue ds0 / 10 ^ (ds0.length - 3) := by
        rw [hnan, trunc_div_million h0 h6]
        rcases hlen69 with h | h
        · rw [h]
          norm_num
          rw [show (1000000 : Nat) = 1000 * 1000 from rfl,
            ← Nat.div_div_eq_div_mul, Nat.mul_div_cancel _ (by norm_num)]
        · rw [h]
          norm_num
      have hnz : ¬t.nanos = 0 := by
        intro hzero
        rw [hzero] at hq
        simp at hq
        exact hms hq.symm
      have hfp : ∃ tail0, fracPart t.nanos =
          '.' :: (pad3 (fracValue ds0 / 10 ^ (ds0.length - 3)) ++ tail0) := by
        rw [fracPart, if_neg hnz]
        by_cases h1 : t.nanos % 1000000 = 0
        · rw [if_pos h1]
          exact ⟨[], by rw [hq]; simp⟩
        · rw [if_neg h1]
          by_cases h2 : t.nanos % 1000 = 0
          · rw [if_pos h2]
            exact ⟨pad3 (t.nanos / 1000 % 1000), by rw [hq]; simp⟩
          · rw [if_neg h2]
            exact ⟨pad3 (t.nanos / 1000 % 1000) ++ pad3 (t.nanos % 1000),
              by rw [hq]; simp [List.append_assoc]⟩
      obtain ⟨tail0, hfp⟩ := hfp
      refine ⟨tail0 ++ ['Z'], ?_⟩
      have hflat : s.data = (pad4 t.year ++ ['-'] ++ pad2 t.month ++ ['-'] ++
          pad2 t.day ++ ['T'] ++ pad2 t.hour ++ [':'] ++ pad2 t.minute ++ [':'] ++
          pad2 t.second) ++ ('.' :: (ds0 ++ ['Z'])) := by
        rw [hdata]
        simp [List.append_assoc]
      have htake : s.data.take 19 = pad4 t.year ++ ['-'] ++ pad2 t.month ++ ['-'] ++
          pad2 t.day ++ ['T'] ++ pad2 t.hour ++ [':'] ++ pad2 t.minute ++ [':'] ++
          pad2 t.second := by
        rw [hflat]
        apply List.take_left'
        simp [pad4, pad2]
      rw [htake]
      simp only [FormatRfc3339, hfp]
      simp [List.append_assoc]

/-- Counterexample to C9 as stated: "2018-08-02T01:02:03.000Z" is a
millisecond-precision fractional input (three digits, with leading zeros),
it parses successfully even at nanosecond clock precision, yet formatting
the parsed timestamp drops the all-zero fraction, so the round-trip does not
return the original string. -/
theorem rfc3339_roundtrip_counterexample :
    (ParseRfc3339 1 "2018-08-02T01:02:03.000Z").map FormatRfc3339 =
      some "2018-08-02T01:02:03Z" ∧
    some "2018-08-02T01:02:03Z" ≠ some ("2018-08-02T01:02:03.000Z" : String) := by
  constructor
  · decide
  · decide

/-- Witness for `rfc3339_roundtrip` at the format test's input with leading
zeros, at millisecond clock precision. -/
theorem rfc3339_roundtrip_witness :
    FormatRfc3339 ⟨2018, 8, 2, 1, 2, 3, 1000000⟩ = "2018-08-02T01:02:03.001Z" :=
  (rfc3339_roundtrip 1000000 "2018-08-02T01:02:03.001Z"
    ⟨2018, 8, 2, 1, 2, 3, 1000000⟩ (by decide) (by decide) (by decide)).2.1
    ['0', '0', '1'] (by decide) (by decide) (by decide)

end GoogleCloudCpp
